import Mathlib

/-!
# cEncryption: a Base64 codec and the RC4 stream cipher

A shallow embedding of `base64.c` and `rc4.c`.

* A byte (`unsigned char`) is a natural number below 256; a byte buffer is a
  `List Byte`, and the `len` argument that accompanies a buffer is its length.
* A text (`char*`) is a `List Char`: the characters stored at the pointer.  The
  buffer is NUL-terminated, so the characters a C function sees are those in
  front of the first NUL (`strlen`).
* A buffer that the code fills front to back through a write index (`output[j++]`)
  is a list that grows at its end; the write index `j` is its length.
* `malloc` is taken to succeed, and lengths and indices are natural numbers: buffers
  are taken to be short enough that no `size_t` or `int` computation wraps.
* A call that ends without a defined result ends with a `Fault`.
-/

namespace CEncryption

/-- An `unsigned char`: a value below 256. -/
abbrev Byte := Nat

/-- How a call ends when it does not deliver a result: either the function reports
failure itself (it returns `NULL`), or it runs into behaviour that C leaves
undefined. -/
inductive Fault where
  /-- The function returned `NULL`. -/
  | nullReturn
  /-- A read outside the buffer it was given (undefined behaviour). -/
  | outOfBounds
  /-- Pointer arithmetic on the `NULL` that `strchr` returned (undefined behaviour). -/
  | nullArith
  /-- A remainder by zero (undefined behaviour). -/
  | divByZero
  deriving DecidableEq, Repr

deriving instance DecidableEq for Except

/-- The terminator of a C string. -/
def NUL : Char := Char.ofNat 0

/-- The bytes of an ASCII string literal, as `(const unsigned char*)text` gives them. -/
def ascii (text : String) : List Byte := text.toList.map Char.toNat

/-! ## base64.c -/

/-- The encoding table of `base64.c`, lines 6-7 (without its terminating NUL). -/
def base64_table : List Char :=
  "ABCDEFGHIJKLMNOPQRSTUVWXYZabcdefghijklmnopqrstuvwxyz0123456789+/".toList

/-- The expression `base64_table[n]`; index 64 is the terminator of the literal. -/
def table_at (n : Nat) : Char := base64_table.getD n NUL

/-- One operand `i < len ? input[i++] : 0` of lines 16-18: the octet read and the
value of `i` afterwards. -/
def next_octet (input : List Byte) (len i : Nat) : Nat × Nat :=
  if i < len then (input.getD i 0, i + 1) else (0, i)

/-- The body of the loop of `base64_encode`, lines 16-25, entered with read index
`i`: the value of `i` after the body and the four characters it writes. -/
def encode_group (input : List Byte) (len i : Nat) : Nat × List Char :=
  let a := next_octet input len i
  let b := next_octet input len a.2
  let c := next_octet input len b.2
  let octet_a := a.1
  let octet_b := b.1
  let octet_c := c.1
  let i := c.2
  let triple := (octet_a <<< 16) ||| (octet_b <<< 8) ||| octet_c
  (i, [table_at ((triple >>> 18) &&& 0x3F),
       table_at ((triple >>> 12) &&& 0x3F),
       if i > len + 1 then '=' else table_at ((triple >>> 6) &&& 0x3F),
       if i > len then '=' else table_at (triple &&& 0x3F)])

/-- The loop `for (i = 0, j = 0; i < len;)` of `base64_encode`, line 15, run for at
most `fuel` iterations from read index `i` with `output` written so far.  It returns
the final `i` together with the characters written. -/
def base64_encode_loop (input : List Byte) (len : Nat) :
    Nat → Nat → List Char → Nat × List Char
  | 0, i, output => (i, output)
  | fuel + 1, i, output =>
    if i < len then
      let g := encode_group input len i
      base64_encode_loop input len fuel g.1 (output ++ g.2)
    else (i, output)

/-- The function `base64_encode(input, len)` with `len = input.length`: the text it
returns.  Every iteration advances `i` by at least one, so `len` iterations are
enough (`base64_encode_loop_spec`). -/
def base64_encode (input : List Byte) : List Char :=
  (base64_encode_loop input input.length input.length 0 []).2

/-- The C function `strlen`: the number of characters in front of the first NUL. -/
def strlen (s : List Char) : Nat := (s.takeWhile (fun c => c != NUL)).length

/-- The C function `strchr(s, c)` scanning from offset `n`: the offset of the first
occurrence of `c`, the terminator included, or `none` for `NULL`. -/
def strchr_from (c : Char) : List Char → Nat → Option Nat
  | [], n => if c = NUL then some n else none
  | x :: xs, n => if x = c then some n else strchr_from c xs (n + 1)

/-- The expression `strchr(s, c) - s`, with `none` when `strchr` returns `NULL`. -/
def strchr (s : List Char) (c : Char) : Option Nat := strchr_from c s 0

/-- The read `input[idx]` of a NUL-terminated text of length `strlen input`: positions
`0 .. strlen input` hold the characters and the terminator, any other position is
outside the buffer.  The index is an integer, so that `len - 1` at `len = 0` (the
largest `size_t` in C) is a position in front of the buffer. -/
def read_char (input : List Char) (idx : Int) : Except Fault Char :=
  if 0 ≤ idx ∧ idx < strlen input then .ok (input.getD idx.toNat NUL)
  else if idx = strlen input then .ok NUL
  else .error .outOfBounds

/-- One operand `input[i] == '=' ? 0 & i++ : strchr(base64_table, input[i++]) - base64_table`
of lines 47-50: the sextet.  In both branches `i` advances by one. -/
def next_sextet (input : List Char) (i : Nat) : Except Fault Nat :=
  match read_char input i with
  | .error f => .error f
  | .ok c =>
    if c = '=' then .ok 0
    else match strchr base64_table c with
      | some n => .ok n
      | none => .error .nullArith

/-- One guarded write `if (j < *out_len) output[j++] = b` of lines 54-56. -/
def put_byte (out_len : Nat) (output : List Byte) (b : Byte) : List Byte :=
  if output.length < out_len then output ++ [b] else output

/-- The loop `for (i = 0, j = 0; i < len;)` of `base64_decode`, lines 46-57, run for
at most `fuel` iterations from read index `i` with `output` written so far. -/
def base64_decode_loop (input : List Char) (len out_len : Nat) :
    Nat → Nat → List Byte → Except Fault (Nat × List Byte)
  | 0, i, output => .ok (i, output)
  | fuel + 1, i, output =>
    if i < len then
      match next_sextet input i with
      | .error f => .error f
      | .ok sextet_a =>
      match next_sextet input (i + 1) with
      | .error f => .error f
      | .ok sextet_b =>
      match next_sextet input (i + 2) with
      | .error f => .error f
      | .ok sextet_c =>
      match next_sextet input (i + 3) with
      | .error f => .error f
      | .ok sextet_d =>
        let triple := (sextet_a <<< 18) ||| (sextet_b <<< 12) ||| (sextet_c <<< 6) ||| sextet_d
        let output := put_byte out_len output ((triple >>> 16) &&& 0xFF)
        let output := put_byte out_len output ((triple >>> 8) &&& 0xFF)
        let output := put_byte out_len output (triple &&& 0xFF)
        base64_decode_loop input len out_len fuel (i + 4) output
    else .ok (i, output)

/-- The function `base64_decode(input, out_len)` for a non-`NULL` `input`: the bytes
written to the returned buffer and the length stored in `*out_len`.  Every iteration
advances `i` by four, so `len` iterations are enough. -/
def base64_decode (input : List Char) : Except Fault (List Byte × Nat) :=
  let len := strlen input
  if len % 4 ≠ 0 then .error .nullReturn
  else
    let out_len := len / 4 * 3
    match read_char input ((len : Int) - 1) with
    | .error f => .error f
    | .ok last =>
    let out_len := if last = '=' then out_len - 1 else out_len
    match read_char input ((len : Int) - 2) with
    | .error f => .error f
    | .ok before =>
    let out_len := if before = '=' then out_len - 1 else out_len
    match base64_decode_loop input len out_len len 0 [] with
    | .error f => .error f
    | .ok r => .ok (r.2, out_len)

/-! ## rc4.c -/

/-- The three assignments `temp = S[i]; S[i] = S[j]; S[j] = temp` (lines 17-19 and
33-35). -/
def swap (S : List Byte) (i j : Nat) : List Byte :=
  let temp := S.getD i 0
  let S := S.set i (S.getD j 0)
  S.set j temp

/-- The state `S[n] = n` for `n = 0 .. 255` that the first loop of `rc4_initialize`
(lines 10-12) leaves, whatever the array held before. -/
def identity_state : List Byte := List.range 256

/-- The body of the second loop of `rc4_initialize` (lines 16-19) at index `i`, on
the pair of the running index `j` and the array `S`. -/
def ksa_step (key : List Byte) (st : Nat × List Byte) (i : Nat) : Nat × List Byte :=
  let j := (st.1 + st.2.getD i 0 + key.getD (i % key.length) 0) % 256
  (j, swap st.2 i j)

/-- The function `rc4_initialize(key, key_length, S)` with `key_length = key.length`:
the array `S` it leaves.  With an empty key the first `i % key_length` is a remainder
by zero. -/
def rc4_initialize (key : List Byte) : Except Fault (List Byte) :=
  if key.length = 0 then .error .divByZero
  else .ok ((List.range 256).foldl (ksa_step key) (0, identity_state)).2

/-- The variables of the loop of `rc4_encrypt_decrypt`. -/
structure Prga where
  /-- The cursor `i`. -/
  i : Nat
  /-- The cursor `j`. -/
  j : Nat
  /-- The state array. -/
  S : List Byte
  /-- The data buffer. -/
  data : List Byte

/-- The body of the loop of `rc4_encrypt_decrypt` (lines 29-39) at position `k`. -/
def prga_step (st : Prga) (k : Nat) : Prga :=
  let i := (st.i + 1) % 256
  let j := (st.j + st.S.getD i 0) % 256
  let S := swap st.S i j
  let t := (S.getD i 0 + S.getD j 0) % 256
  { i := i, j := j, S := S, data := st.data.set k (st.data.getD k 0 ^^^ S.getD t 0) }

/-- The function `rc4_encrypt_decrypt(data, data_length, S)` with
`data_length = data.length`: the contents of `data` and of `S` when it returns. -/
def rc4_encrypt_decrypt (data S : List Byte) : List Byte × List Byte :=
  let st := (List.range data.length).foldl prga_step { i := 0, j := 0, S := S, data := data }
  (st.data, st.S)

/-- A state array as the specification describes it: 256 entries in which every value
`0 .. 255` occurs exactly once. -/
def is_permutation (S : List Byte) : Prop :=
  S.length = 256 ∧ ∀ v, v < 256 → S.count v = 1

/-- A character that `base64_decode` can turn into a sextet: one of the table, or `=`. -/
def valid_char (c : Char) : Prop := c ∈ base64_table ∨ c = '='

instance : DecidablePred valid_char := fun c => by
  unfold valid_char
  infer_instance

/-- The sextet of a character in the words of the specification: 0 for `=`, otherwise
the index of the character in the alphabet. -/
def sextet_value (c : Char) : Nat :=
  if c = '=' then 0 else (strchr base64_table c).getD 0

/-- The three bytes of the 24-bit value `s0<<18 | s1<<12 | s2<<6 | s3`, most
significant first. -/
def group_bytes (s0 s1 s2 s3 : Nat) : List Byte :=
  let v := (s0 <<< 18) ||| (s1 <<< 12) ||| (s2 <<< 6) ||| s3
  [(v >>> 16) &&& 0xFF, (v >>> 8) &&& 0xFF, v &&& 0xFF]

/-- The concatenation, over the 4-character groups of a text in order, of the three
bytes of each group, in the words of the specification. -/
def decoded_groups : List Char → List Byte
  | c0 :: c1 :: c2 :: c3 :: rest =>
    group_bytes (sextet_value c0) (sextet_value c1) (sextet_value c2) (sextet_value c3)
      ++ decoded_groups rest
  | _ => []

/-- The length `base64_decode` reports, in the words of the specification: `3 * (len / 4)`,
minus 1 if the last character is `=`, minus 1 more if the one before it is `=`. -/
def decoded_length (input : List Char) : Nat :=
  3 * (input.length / 4)
    - (if input.getD (input.length - 1) NUL = '=' then 1 else 0)
    - (if input.getD (input.length - 2) NUL = '=' then 1 else 0)

/-- The four characters that the body of the loop of `base64_encode` (lines 20-25)
writes for three octets when neither test for `=` holds. -/
def group_chars (octet_a octet_b octet_c : Nat) : List Char :=
  let triple := (octet_a <<< 16) ||| (octet_b <<< 8) ||| octet_c
  [table_at ((triple >>> 18) &&& 0x3F),
   table_at ((triple >>> 12) &&& 0x3F),
   table_at ((triple >>> 6) &&& 0x3F),
   table_at (triple &&& 0x3F)]

/-- The characters of all groups of a byte sequence, a missing byte of the last group
counting as 0, and no `=` written: what `base64_encode` returns
(`base64_encode_eq_unpadded`). -/
def unpadded_groups : List Byte → List Char
  | [] => []
  | [a] => group_chars a 0 0
  | [a, b] => group_chars a b 0
  | a :: b :: c :: rest => group_chars a b c ++ unpadded_groups rest

/-- The standard padded Base64 encoding in the words of the claim: the table of
`base64.c`, every group of three bytes packed most significant bit first into four
sextets, a last group of two bytes padded with one `=` and a last group of one byte
padded with `==`. -/
def reference_encode : List Byte → List Char
  | [] => []
  | [a] => [table_at (a / 4), table_at (a % 4 * 16), '=', '=']
  | [a, b] => [table_at (a / 4), table_at (a % 4 * 16 + b / 16), table_at (b % 16 * 4), '=']
  | a :: b :: c :: rest =>
    [table_at (a / 4), table_at (a % 4 * 16 + b / 16), table_at (b % 16 * 4 + c / 64),
      table_at (c % 64)] ++ reference_encode rest

/-! ## Lemmas on the Base64 encoder -/

theorem next_octet_snd (input : List Byte) (len i : Nat) :
    (next_octet input len i).2 = if i < len then i + 1 else i := by
  unfold next_octet
  split <;> rfl

theorem encode_group_fst (input : List Byte) (len i : Nat) :
    (encode_group input len i).1 = min (i + 3) (max i len) := by
  simp only [encode_group, next_octet_snd]
  split_ifs <;> omega

theorem encode_group_snd_length (input : List Byte) (len i : Nat) :
    (encode_group input len i).2.length = 4 := by
  simp [encode_group]

theorem base64_encode_loop_spec (input : List Byte) (len : Nat) :
    ∀ (fuel i : Nat) (output : List Char), i ≤ len → len - i ≤ fuel →
      (base64_encode_loop input len fuel i output).1 = len ∧
      (base64_encode_loop input len fuel i output).2.length
        = output.length + 4 * ((len - i + 2) / 3) := by
  intro fuel
  induction fuel with
  | zero =>
    intro i output hi hf
    have : i = len := by omega
    subst this
    simp [base64_encode_loop]
  | succ fuel ih =>
    intro i output hi hf
    unfold base64_encode_loop
    by_cases hlt : i < len
    · have hg := encode_group_fst input len i
      have hl := encode_group_snd_length input len i
      simp only [hlt, if_true]
      have h1 : (encode_group input len i).1 ≤ len := by rw [hg]; omega
      have h2 : len - (encode_group input len i).1 ≤ fuel := by rw [hg]; omega
      obtain ⟨e1, e2⟩ := ih _ (output ++ (encode_group input len i).2) h1 h2
      refine ⟨e1, ?_⟩
      rw [e2, List.length_append, hl, hg]
      omega
    · have : i = len := by omega
      subst this
      simp

theorem table_at_ne_pad : ∀ n, n < 64 → table_at n ≠ '=' := by decide

theorem encode_group_no_pad (input : List Byte) (len i : Nat) (h : i < len) :
    '=' ∉ (encode_group input len i).2 := by
  have h3 : ∀ x : Nat, x &&& 0x3F < 64 := fun x =>
    Nat.lt_of_le_of_lt Nat.and_le_right (by decide)
  have hi := encode_group_fst input len i
  simp only [encode_group] at hi ⊢
  have h1 : ¬ ((next_octet input len (next_octet input len (next_octet input len i).2).2).2
      > len + 1) := by rw [hi]; omega
  have h2 : ¬ ((next_octet input len (next_octet input len (next_octet input len i).2).2).2
      > len) := by rw [hi]; omega
  simp only [h1, h2, if_false, List.mem_cons, List.mem_singleton, List.not_mem_nil, or_false,
    not_or]
  exact ⟨(table_at_ne_pad _ (h3 _)).symm, (table_at_ne_pad _ (h3 _)).symm,
    (table_at_ne_pad _ (h3 _)).symm, (table_at_ne_pad _ (h3 _)).symm⟩

theorem base64_encode_loop_no_pad (input : List Byte) (len : Nat) :
    ∀ (fuel i : Nat) (output : List Char), '=' ∉ output →
      '=' ∉ (base64_encode_loop input len fuel i output).2 := by
  intro fuel
  induction fuel with
  | zero => intro i output h; simpa [base64_encode_loop] using h
  | succ fuel ih =>
    intro i output h
    unfold base64_encode_loop
    by_cases hlt : i < len
    · simp only [hlt, if_true]
      apply ih
      rw [List.mem_append, not_or]
      exact ⟨h, encode_group_no_pad input len i hlt⟩
    · simpa [hlt] using h

/-! ## Lemmas on the RC4 state -/

theorem swap_length (S : List Byte) (i j : Nat) : (swap S i j).length = S.length := by
  simp [swap]

theorem swap_perm (S : List Byte) (i j : Nat) (hi : i < S.length) (hj : j < S.length) :
    (swap S i j).Perm S := by
  rw [List.perm_iff_count]
  intro a
  have hj2 : j < (S.set i (S.getD j 0)).length := by simpa using hj
  simp only [swap]
  rw [List.count_set _ _ _ _ hj2, List.count_set _ _ _ _ hi]
  have hci : (if S[i] == a then 1 else 0) ≤ S.count a := by
    split
    · rename_i h
      have : a ∈ S := by
        have := List.getElem_mem hi
        simp only [beq_iff_eq] at h
        rw [← h]; exact this
      exact List.count_pos_iff.mpr this
    · omega
  have hcj : (if S[j] == a then 1 else 0) ≤ S.count a := by
    split
    · rename_i h
      have : a ∈ S := by
        have := List.getElem_mem hj
        simp only [beq_iff_eq] at h
        rw [← h]; exact this
      exact List.count_pos_iff.mpr this
    · omega
  rw [List.getElem_set]
  simp only [List.getD_eq_getElem?_getD, List.getElem?_eq_getElem hi, List.getElem?_eq_getElem hj,
    Option.getD_some]
  by_cases hij : i = j
  · subst hij
    simp only [if_true]
    omega
  · simp only [hij, if_false]
    omega

theorem is_permutation_of_perm (S : List Byte) (h : S.Perm (List.range 256)) :
    is_permutation S := by
  refine ⟨by simpa using h.length_eq, ?_⟩
  intro v hv
  rw [h.count_eq]
  exact List.count_eq_one_of_mem (List.nodup_range 256) (List.mem_range.mpr hv)

theorem is_permutation_swap (S : List Byte) (i j : Nat) (hi : i < 256) (hj : j < 256)
    (h : is_permutation S) : is_permutation (swap S i j) := by
  have hp := swap_perm S i j (by rw [h.1]; exact hi) (by rw [h.1]; exact hj)
  refine ⟨by rw [swap_length]; exact h.1, ?_⟩
  intro v hv
  rw [hp.count_eq]
  exact h.2 v hv

theorem ksa_fold_perm (key : List Byte) (l : List Nat) (hl : ∀ i ∈ l, i < 256) :
    ∀ (j : Nat) (S : List Byte), is_permutation S →
      is_permutation (l.foldl (ksa_step key) (j, S)).2 := by
  induction l with
  | nil => intro j S h; simpa using h
  | cons i l ih =>
    intro j S h
    rw [List.foldl_cons]
    apply ih (fun x hx => hl x (List.mem_cons_of_mem _ hx))
    exact is_permutation_swap _ _ _ (hl i (List.mem_cons_self _ _)) (Nat.mod_lt _ (by decide)) h

theorem prga_fold_perm (l : List Nat) :
    ∀ st : Prga, is_permutation st.S → is_permutation (l.foldl prga_step st).S := by
  induction l with
  | nil => intro st h; simpa using h
  | cons k l ih =>
    intro st h
    rw [List.foldl_cons]
    apply ih
    simp only [prga_step]
    exact is_permutation_swap _ _ _ (Nat.mod_lt _ (by decide)) (Nat.mod_lt _ (by decide)) h

theorem xor_mid (a x b : Nat) : a ^^^ x ^^^ b = a ^^^ b ^^^ x := by
  rw [Nat.xor_assoc, Nat.xor_comm x b, ← Nat.xor_assoc]

/-- Two runs of the loop of `rc4_encrypt_decrypt` from the same cursors and state, on
buffers `d1`, `d2` of one length: the cursors and the state stay equal, and at every
position both runs have XORed the same value into the data. -/
theorem prga_fold_rel (d1 d2 : List Byte) (l : List Nat) :
    ∀ s1 s2 : Prga, s1.i = s2.i → s1.j = s2.j → s1.S = s2.S →
      s1.data.length = s2.data.length →
      (∀ m, s1.data.getD m 0 ^^^ d1.getD m 0 = s2.data.getD m 0 ^^^ d2.getD m 0) →
      (l.foldl prga_step s1).i = (l.foldl prga_step s2).i ∧
      (l.foldl prga_step s1).j = (l.foldl prga_step s2).j ∧
      (l.foldl prga_step s1).S = (l.foldl prga_step s2).S ∧
      (l.foldl prga_step s1).data.length = (l.foldl prga_step s2).data.length ∧
      (∀ m, (l.foldl prga_step s1).data.getD m 0 ^^^ d1.getD m 0
          = (l.foldl prga_step s2).data.getD m 0 ^^^ d2.getD m 0) := by
  induction l with
  | nil => intro s1 s2 hi hj hS hlen hd; exact ⟨hi, hj, hS, hlen, hd⟩
  | cons k l ih =>
    intro s1 s2 hi hj hS hlen hd
    simp only [List.foldl_cons]
    apply ih
    · simp [prga_step, hi]
    · simp [prga_step, hi, hj, hS]
    · simp [prga_step, hi, hj, hS]
    · simp [prga_step, hlen]
    · intro m
      simp only [prga_step, hi, hj, hS]
      simp only [List.getD_eq_getElem?_getD, List.getElem?_set]
      by_cases hkm : k = m
      · subst hkm
        have h := hd k
        simp only [List.getD_eq_getElem?_getD] at h
        by_cases hk : k < s1.data.length
        · have hk2 : k < s2.data.length := hlen ▸ hk
          simp only [if_true, hk, hk2, Option.getD_some]
          rw [xor_mid, h, xor_mid]
        · have hk2 : ¬ k < s2.data.length := hlen ▸ hk
          simp only [if_true, hk, hk2, if_false]
          rw [List.getElem?_eq_none (Nat.le_of_not_lt hk),
            List.getElem?_eq_none (Nat.le_of_not_lt hk2)] at h
          exact h
      · simp only [hkm, if_false]
        have h := hd m
        simp only [List.getD_eq_getElem?_getD] at h
        exact h

theorem prga_fold_data_length (l : List Nat) :
    ∀ st : Prga, (l.foldl prga_step st).data.length = st.data.length := by
  induction l with
  | nil => intro st; rfl
  | cons k l ih =>
    intro st
    rw [List.foldl_cons, ih]
    simp [prga_step]

theorem rc4_encrypt_decrypt_length (data S : List Byte) :
    (rc4_encrypt_decrypt data S).1.length = data.length := by
  simp [rc4_encrypt_decrypt, prga_fold_data_length]

theorem xor_unique (a b c : Nat) (h : a ^^^ b = c ^^^ a) : c = b := by
  have h1 : a ^^^ (a ^^^ b) = a ^^^ (c ^^^ a) := by rw [h]
  rw [← Nat.xor_assoc, Nat.xor_self, Nat.zero_xor, Nat.xor_comm c a, ← Nat.xor_assoc,
    Nat.xor_self, Nat.zero_xor] at h1
  exact h1.symm

theorem rc4_twice (data S : List Byte) :
    (rc4_encrypt_decrypt (rc4_encrypt_decrypt data S).1 S).1 = data := by
  have hlen := rc4_encrypt_decrypt_length data S
  have hlen2 := rc4_encrypt_decrypt_length (rc4_encrypt_decrypt data S).1 S
  have hrel := prga_fold_rel data (rc4_encrypt_decrypt data S).1 (List.range data.length)
    { i := 0, j := 0, S := S, data := data }
    { i := 0, j := 0, S := S, data := (rc4_encrypt_decrypt data S).1 }
    rfl rfl rfl hlen.symm (by intro m; simp [Nat.xor_self])
  have hpt := hrel.2.2.2.2
  apply List.ext_getElem (by rw [hlen2, hlen])
  intro n h1 h2
  have hn := hpt n
  have e1 : (rc4_encrypt_decrypt (rc4_encrypt_decrypt data S).1 S).1
      = (List.foldl prga_step { i := 0, j := 0, S := S, data := (rc4_encrypt_decrypt data S).1 }
          (List.range data.length)).data := by
    conv_lhs => rw [rc4_encrypt_decrypt]
    simp only [hlen]
  have e2 : (rc4_encrypt_decrypt data S).1
      = (List.foldl prga_step { i := 0, j := 0, S := S, data := data }
          (List.range data.length)).data := rfl
  rw [← e1, ← e2] at hn
  have h3 : n < (rc4_encrypt_decrypt data S).1.length := by rw [hlen]; exact h2
  have := xor_unique _ _ _ hn
  simp only [List.getD_eq_getElem?_getD, List.getElem?_eq_getElem h1,
    List.getElem?_eq_getElem h2, Option.getD_some] at this
  exact this

theorem is_permutation_identity : is_permutation identity_state := by
  unfold identity_state
  exact is_permutation_of_perm (List.range 256) (List.Perm.refl (List.range 256))

/-- With a non-empty key `rc4_initialize` returns, leaving the scrambled array. -/
theorem rc4_initialize_ok (key : List Byte) (hkey : key ≠ []) :
    rc4_initialize key
      = .ok ((List.range 256).foldl (ksa_step key) (0, identity_state)).2 := by
  have hlen : ¬ key.length = 0 := by
    intro h
    exact hkey (List.length_eq_zero.mp h)
  simp only [ rc4_initialize, hlen, if_false]

theorem key_repeat_index (key : List Byte) (i : Nat) (hkey : key ≠ []) :
    (key ++ key).getD (i % (key ++ key).length) 0 = key.getD (i % key.length) 0 := by
  have hpos : 0 < key.length := List.length_pos.mpr hkey
  have hlt : i % (key ++ key).length < (key ++ key).length :=
    Nat.mod_lt _ (by rw [List.length_append]; omega)
  rw [List.length_append] at hlt ⊢
  have hmod : i % key.length < key.length := Nat.mod_lt _ hpos
  by_cases hm : i % (key.length + key.length) < key.length
  · rw [List.getD_append _ _ _ _ hm]
    congr 1
    have := Nat.mod_mod_of_dvd i (show key.length ∣ key.length + key.length from ⟨2, by omega⟩)
    rw [← this, Nat.mod_eq_of_lt hm]
  · rw [List.getD_append_right _ _ _ _ (Nat.le_of_not_lt hm)]
    congr 1
    have := Nat.mod_mod_of_dvd i (show key.length ∣ key.length + key.length from ⟨2, by omega⟩)
    rw [← this]
    have h2 : i % (key.length + key.length) - key.length < key.length := by omega
    rw [Nat.mod_eq_sub_mod (Nat.le_of_not_lt hm), Nat.mod_eq_of_lt h2]

theorem ksa_step_repeat (key : List Byte) (hkey : key ≠ []) (st : Nat × List Byte) (i : Nat) :
    ksa_step (key ++ key) st i = ksa_step key st i := by
  simp only [ksa_step, key_repeat_index key i hkey]

theorem rc4_initialize_repeat (key : List Byte) (hkey : key ≠ []) :
    rc4_initialize (key ++ key) = rc4_initialize key := by
  have h2 : key ++ key ≠ [] := by simp [hkey]
  rw [rc4_initialize_ok _ h2, rc4_initialize_ok _ hkey]
  have : ksa_step (key ++ key) = ksa_step key := by
    funext st i
    exact ksa_step_repeat key hkey st i
  rw [this]

theorem rc4_keystream_indep (S d1 d2 : List Byte) (hlen : d1.length = d2.length) :
    (rc4_encrypt_decrypt d1 S).2 = (rc4_encrypt_decrypt d2 S).2 ∧
    ∀ k, (rc4_encrypt_decrypt d1 S).1.getD k 0 ^^^ d1.getD k 0
        = (rc4_encrypt_decrypt d2 S).1.getD k 0 ^^^ d2.getD k 0 := by
  have hrel := prga_fold_rel d1 d2 (List.range d1.length)
    { i := 0, j := 0, S := S, data := d1 } { i := 0, j := 0, S := S, data := d2 }
    rfl rfl rfl hlen (fun m => by simp [Nat.xor_self])
  have e2 : rc4_encrypt_decrypt d2 S
      = ((List.foldl prga_step { i := 0, j := 0, S := S, data := d2 }
          (List.range d1.length)).data,
         (List.foldl prga_step { i := 0, j := 0, S := S, data := d2 }
          (List.range d1.length)).S) := by
    rw [rc4_encrypt_decrypt, hlen]
  rw [e2]
  exact ⟨hrel.2.2.1, hrel.2.2.2.2⟩

theorem rc4_xor_keystream (S d : List Byte) :
    (rc4_encrypt_decrypt d S).1
      = List.zipWith (fun x y => x ^^^ y) d
          (rc4_encrypt_decrypt (List.replicate d.length 0) S).1 := by
  have h := (rc4_keystream_indep S d (List.replicate d.length 0) (by simp)).2
  have hl1 := rc4_encrypt_decrypt_length d S
  have hl2 := rc4_encrypt_decrypt_length (List.replicate d.length 0) S
  rw [List.length_replicate] at hl2
  apply List.ext_getElem
  · rw [List.length_zipWith, hl1, hl2, Nat.min_self]
  · intro n h1 h2
    have hn : n < d.length := hl1 ▸ h1
    have hz : n < (rc4_encrypt_decrypt (List.replicate d.length 0) S).1.length := by
      rw [hl2]; exact hn
    have hk := h n
    simp only [List.getD_eq_getElem?_getD, List.getElem?_eq_getElem h1,
      List.getElem?_eq_getElem hn, List.getElem?_eq_getElem hz, Option.getD_some,
      List.getElem?_replicate, hn, if_true, Nat.xor_zero] at hk
    rw [List.getElem_zipWith, ← hk, Nat.xor_comm, Nat.xor_cancel_right]

theorem valid_char_ne_nul (c : Char) (h : valid_char c) : c ≠ NUL := by
  rcases h with h | h
  · intro hc
    rw [hc] at h
    revert h
    decide
  · rw [h]; decide

theorem strlen_eq_length (input : List Char) (h : ∀ c ∈ input, c ≠ NUL) :
    strlen input = input.length := by
  unfold strlen
  rw [List.takeWhile_eq_self_iff.mpr]
  intro c hc
  simpa using h c hc

theorem strchr_from_some (c : Char) (s : List Char) (hc : c ∈ s) :
    ∀ n, ∃ m, strchr_from c s n = some m := by
  induction s with
  | nil => simp at hc
  | cons x xs ih =>
    intro n
    unfold strchr_from
    by_cases hx : x = c
    · exact ⟨n, by simp [hx]⟩
    · simp only [hx, if_false]
      rcases List.mem_cons.mp hc with h | h
      · exact absurd h.symm hx
      · exact ih h (n + 1)

theorem next_sextet_valid (input : List Char) (hv : ∀ c ∈ input, valid_char c)
    (i : Nat) (hi : i < input.length) :
    next_sextet input i = .ok (sextet_value (input.getD i NUL)) := by
  have hlen := strlen_eq_length input (fun c hc => valid_char_ne_nul c (hv c hc))
  have hr : read_char input (i : Int) = .ok (input.getD i NUL) := by
    unfold read_char
    rw [hlen]
    have : (0 : Int) ≤ (i : Int) ∧ (i : Int) < (input.length : Int) :=
      ⟨Int.ofNat_nonneg i, Int.ofNat_lt.mpr hi⟩
    simp only [this, and_self, if_true, Int.toNat_ofNat]
  unfold next_sextet
  rw [hr]
  have hmem : input.getD i NUL ∈ input := by
    rw [List.getD_eq_getElem _ _ hi]
    exact List.getElem_mem hi
  unfold sextet_value
  by_cases he : input.getD i NUL = '='
  · simp only [he, if_true]
  · simp only [he, if_false]
    rcases hv _ hmem with h | h
    · obtain ⟨m, hm⟩ := strchr_from_some _ _ h 0
      unfold strchr
      rw [hm]
      rfl
    · exact absurd h he

theorem foldl_put_byte (out_len : Nat) (bytes : List Byte) :
    ∀ output : List Byte,
      bytes.foldl (put_byte out_len) output = output ++ bytes.take (out_len - output.length) := by
  induction bytes with
  | nil => intro output; simp
  | cons b rest ih =>
    intro output
    rw [List.foldl_cons, ih]
    unfold put_byte
    by_cases h : output.length < out_len
    · simp only [h, if_true, List.length_append, List.length_singleton]
      obtain ⟨k, hk⟩ : ∃ k, out_len - output.length = k + 1 := ⟨out_len - output.length - 1, by omega⟩
      rw [hk, List.take_succ_cons]
      have : out_len - (output.length + 1) = k := by omega
      rw [this]
      simp
    · simp only [h, if_false]
      have : out_len - output.length = 0 := by omega
      rw [this]
      simp

theorem drop_four (input : List Char) (i : Nat) (h : i + 4 ≤ input.length) :
    input.drop i = input.getD i NUL :: input.getD (i + 1) NUL :: input.getD (i + 2) NUL
      :: input.getD (i + 3) NUL :: input.drop (i + 4) := by
  have h0 : i < input.length := by omega
  have h1 : i + 1 < input.length := by omega
  have h2 : i + 2 < input.length := by omega
  have h3 : i + 3 < input.length := by omega
  rw [List.drop_eq_getElem_cons h0, List.drop_eq_getElem_cons h1,
    List.drop_eq_getElem_cons h2, List.drop_eq_getElem_cons h3,
    List.getD_eq_getElem _ _ h0, List.getD_eq_getElem _ _ h1,
    List.getD_eq_getElem _ _ h2, List.getD_eq_getElem _ _ h3]

theorem base64_decode_loop_valid (input : List Char) (out_len : Nat)
    (hv : ∀ c ∈ input, valid_char c) :
    ∀ (fuel i : Nat) (output : List Byte), i ≤ input.length →
      (input.length - i) % 4 = 0 → input.length - i ≤ 4 * fuel →
      base64_decode_loop input input.length out_len fuel i output
        = .ok (input.length,
            (decoded_groups (input.drop i)).foldl (put_byte out_len) output) := by
  intro fuel
  induction fuel with
  | zero =>
    intro i output hi _ hf
    have : i = input.length := by omega
    subst this
    simp [base64_decode_loop, decoded_groups]
  | succ fuel ih =>
    intro i output hi hm hf
    unfold base64_decode_loop
    by_cases hlt : i < input.length
    · have h4 : i + 4 ≤ input.length := by omega
      simp only [hlt, if_true]
      rw [next_sextet_valid input hv i (by omega), next_sextet_valid input hv (i + 1) (by omega),
        next_sextet_valid input hv (i + 2) (by omega),
        next_sextet_valid input hv (i + 3) (by omega)]
      simp only []
      rw [ih (i + 4) _ h4 (by omega) (by omega), drop_four input i h4]
      simp only [decoded_groups, group_bytes, List.foldl_append, List.foldl_cons, List.foldl_nil]
    · have : i = input.length := by omega
      subst this
      simp [decoded_groups]

theorem decoded_groups_length (input : List Char) :
    ∀ n, input.length = 4 * n → (decoded_groups input).length = 3 * n := by
  induction input using decoded_groups.induct with
  | case1 c0 c1 c2 c3 rest ih =>
    intro n hn
    simp only [List.length_cons] at hn
    simp only [decoded_groups, group_bytes, List.length_append, List.length_cons,
      List.length_nil]
    rw [ih (n - 1) (by omega)]
    omega
  | case2 l hl =>
    intro n hn
    have : decoded_groups l = [] := by
      unfold decoded_groups
      split
      · exact absurd rfl (hl _ _ _ _ _)
      · rfl
    rw [this]
    match l, hl, hn with
    | [], _, hn => simp at hn ⊢; omega
    | [_], _, hn => simp at hn; omega
    | [_, _], _, hn => simp at hn; omega
    | [_, _, _], _, hn => simp at hn; omega
    | _ :: _ :: _ :: _ :: _, hl, _ => exact absurd rfl (hl _ _ _ _ _)

theorem read_char_valid (input : List Char) (hv : ∀ c ∈ input, valid_char c)
    (i : Nat) (hi : i < input.length) :
    read_char input (i : Int) = .ok (input.getD i NUL) := by
  have hlen := strlen_eq_length input (fun c hc => valid_char_ne_nul c (hv c hc))
  unfold read_char
  rw [hlen]
  have : (0 : Int) ≤ (i : Int) ∧ (i : Int) < (input.length : Int) :=
    ⟨Int.ofNat_nonneg i, Int.ofNat_lt.mpr hi⟩
  simp only [this, and_self, if_true, Int.toNat_ofNat]

/-- What `base64_decode` does on a text of valid characters whose length is a positive
multiple of 4: it returns the first `decoded_length` bytes of `decoded_groups`. -/
theorem base64_decode_valid (input : List Char) (hv : ∀ c ∈ input, valid_char c)
    (hpos : 0 < input.length) (h4 : input.length % 4 = 0) :
    base64_decode input
      = .ok ((decoded_groups input).take (decoded_length input), decoded_length input) := by
  have hlen := strlen_eq_length input (fun c hc => valid_char_ne_nul c (hv c hc))
  have e1 : (input.length : Int) - 1 = ((input.length - 1 : Nat) : Int) := by omega
  have e2 : (input.length : Int) - 2 = ((input.length - 2 : Nat) : Int) := by omega
  have hlast := read_char_valid input hv (input.length - 1) (by omega)
  have hbefore := read_char_valid input hv (input.length - 2) (by omega)
  have hout : (if input.getD (input.length - 2) NUL = '=' then
        (if input.getD (input.length - 1) NUL = '=' then input.length / 4 * 3 - 1
          else input.length / 4 * 3) - 1
      else (if input.getD (input.length - 1) NUL = '=' then input.length / 4 * 3 - 1
          else input.length / 4 * 3)) = decoded_length input := by
    unfold decoded_length
    split_ifs <;> omega
  unfold base64_decode
  simp only [hlen, h4, ne_eq, not_true_eq_false, if_false, e1, e2, hlast, hbefore]
  rw [hout, base64_decode_loop_valid input _ hv input.length 0 [] (Nat.zero_le _)
    (by simpa using h4) (by omega)]
  simp only [List.drop_zero, foldl_put_byte, List.length_nil, Nat.sub_zero, List.nil_append]

theorem decoded_length_le (input : List Char) :
    decoded_length input ≤ 3 * (input.length / 4) := by
  unfold decoded_length
  omega

theorem strchr_from_none (c : Char) (hc : c ≠ NUL) (s : List Char) (hs : c ∉ s) :
    ∀ n, strchr_from c s n = none := by
  induction s with
  | nil => intro n; simp [strchr_from, hc]
  | cons x xs ih =>
    intro n
    have hx : ¬ x = c := fun h => hs (h ▸ List.mem_cons_self _ _)
    unfold strchr_from
    simp only [hx, if_false]
    exact ih (fun h => hs (List.mem_cons_of_mem _ h)) (n + 1)

theorem getD_ne_nul_of_lt_strlen (input : List Char) :
    ∀ i, i < strlen input → input.getD i NUL ≠ NUL := by
  induction input with
  | nil => intro i hi; simp [strlen] at hi
  | cons x xs ih =>
    intro i hi
    unfold strlen at hi
    by_cases hx : x = NUL
    · simp [List.takeWhile_cons, hx] at hi
    · have hb : (x != NUL) = true := by simpa using hx
      rw [List.takeWhile_cons, hb] at hi
      simp only [if_true, List.length_cons] at hi
      cases i with
      | zero => simpa using hx
      | succ i =>
        have := ih i (by unfold strlen; omega)
        simpa using this

theorem and_3 (x : Nat) : x &&& 3 = x % 4 := Nat.and_pow_two_sub_one_eq_mod x 2
theorem and_15 (x : Nat) : x &&& 15 = x % 16 := Nat.and_pow_two_sub_one_eq_mod x 4
theorem and_63 (x : Nat) : x &&& 63 = x % 64 := Nat.and_pow_two_sub_one_eq_mod x 6
theorem and_255 (x : Nat) : x &&& 255 = x % 256 := Nat.and_pow_two_sub_one_eq_mod x 8

theorem shl_or (a b i : Nat) (h : b < 2 ^ i) : a <<< i ||| b = a * 2 ^ i + b := by
  rw [Nat.shiftLeft_eq, Nat.mul_comm, ← Nat.mul_add_lt_is_or h]

/-- The value of `(octet_a << 16) | (octet_b << 8) | octet_c` for bytes. -/
theorem triple_value (a b c : Nat) (hb : b < 256) (hc : c < 256) :
    (a <<< 16) ||| (b <<< 8) ||| c = a * 65536 + b * 256 + c := by
  rw [Nat.or_assoc, shl_or b c 8 hc, shl_or a _ 16 (by omega)]
  omega

/-- The four sextets of the 24-bit value of three bytes. -/
theorem triple_fields (a b c : Nat) (ha : a < 256) (hb : b < 256) (hc : c < 256) :
    (((a <<< 16) ||| (b <<< 8) ||| c) >>> 18) &&& 0x3F = a / 4 ∧
    (((a <<< 16) ||| (b <<< 8) ||| c) >>> 12) &&& 0x3F = a % 4 * 16 + b / 16 ∧
    (((a <<< 16) ||| (b <<< 8) ||| c) >>> 6) &&& 0x3F = b % 16 * 4 + c / 64 ∧
    ((a <<< 16) ||| (b <<< 8) ||| c) &&& 0x3F = c % 64 := by
  rw [triple_value a b c hb hc]
  simp only [and_63, Nat.shiftRight_eq_div_pow]
  omega

/-- The sextet expressions of the claim on bytes, as quotients and remainders. -/
theorem byte_fields (a b c : Nat) (hb : b < 256) (hc : c < 256) :
    a >>> 2 = a / 4 ∧
    ((a &&& 3) <<< 4) ||| (b >>> 4) = a % 4 * 16 + b / 16 ∧
    ((b &&& 15) <<< 2) ||| (c >>> 6) = b % 16 * 4 + c / 64 ∧
    c &&& 63 = c % 64 := by
  refine ⟨by rw [Nat.shiftRight_eq_div_pow], ?_, ?_, and_63 c⟩
  · rw [shl_or _ _ 4 (by rw [Nat.shiftRight_eq_div_pow]; omega), and_3,
      Nat.shiftRight_eq_div_pow]
    omega
  · rw [shl_or _ _ 2 (by rw [Nat.shiftRight_eq_div_pow]; omega), and_15,
      Nat.shiftRight_eq_div_pow]
    omega

/-- The three bytes rebuilt from the four sextets of a 24-bit value. -/
theorem group_bytes_fields (a b c : Nat) (ha : a < 256) (hb : b < 256) (hc : c < 256) :
    group_bytes (a / 4) (a % 4 * 16 + b / 16) (b % 16 * 4 + c / 64) (c % 64) = [a, b, c] := by
  have hv : ((a / 4) <<< 18) ||| ((a % 4 * 16 + b / 16) <<< 12)
      ||| ((b % 16 * 4 + c / 64) <<< 6) ||| (c % 64) = a * 65536 + b * 256 + c := by
    rw [Nat.or_assoc, Nat.or_assoc, shl_or _ (c % 64) 6 (by omega),
      shl_or _ _ 12 (by omega), shl_or _ _ 18 (by omega)]
    omega
  unfold group_bytes
  simp only [hv, and_255, Nat.shiftRight_eq_div_pow]
  have h1 : (a * 65536 + b * 256 + c) / 2 ^ 16 % 256 = a := by omega
  have h2 : (a * 65536 + b * 256 + c) / 2 ^ 8 % 256 = b := by omega
  have h3 : (a * 65536 + b * 256 + c) % 256 = c := by omega
  rw [h1, h2, h3]

theorem encode_group_eq (input : List Byte) (i : Nat) (h : i < input.length) :
    encode_group input input.length i
      = (min (i + 3) input.length,
          group_chars (input.getD i 0) (input.getD (i + 1) 0) (input.getD (i + 2) 0)) := by
  have hi := encode_group_fst input input.length i
  have e0 : next_octet input input.length i = (input.getD i 0, i + 1) := by
    simp [next_octet, h]
  have e1 : next_octet input input.length (i + 1)
      = (input.getD (i + 1) 0, min (i + 2) input.length) := by
    unfold next_octet
    by_cases h1 : i + 1 < input.length
    · simp only [h1, if_true]
      congr 1
      omega
    · simp only [h1, if_false]
      rw [List.getD_eq_default _ _ (by omega)]
      congr 1
      omega
  have e2 : next_octet input input.length (min (i + 2) input.length)
      = (input.getD (i + 2) 0, min (i + 3) input.length) := by
    unfold next_octet
    by_cases h2 : i + 2 < input.length
    · have : min (i + 2) input.length = i + 2 := by omega
      simp only [this, h2, if_true]
      congr 1
      omega
    · have : ¬ min (i + 2) input.length < input.length := by omega
      simp only [this, if_false]
      rw [List.getD_eq_default _ _ (by omega)]
      congr 1
      omega
  have hn1 : ¬ min (i + 3) input.length > input.length + 1 := by omega
  have hn2 : ¬ min (i + 3) input.length > input.length := by omega
  simp only [encode_group, group_chars, e0, e1, e2, hn1, hn2, if_false]

theorem unpadded_groups_step (l : List Byte) (hl : l ≠ []) :
    unpadded_groups l
      = group_chars (l.getD 0 0) (l.getD 1 0) (l.getD 2 0) ++ unpadded_groups (l.drop 3) := by
  match l, hl with
  | [a], _ => simp [unpadded_groups]
  | [a, b], _ => simp [unpadded_groups]
  | a :: b :: c :: rest, _ => simp [unpadded_groups]

theorem getD_drop_zero (input : List Byte) (i j : Nat) :
    (input.drop i).getD j 0 = input.getD (i + j) 0 := by
  simp only [List.getD_eq_getElem?_getD, List.getElem?_drop]

theorem base64_encode_loop_eq (input : List Byte) :
    ∀ (fuel i : Nat) (output : List Char), i ≤ input.length → input.length - i ≤ fuel →
      base64_encode_loop input input.length fuel i output
        = (input.length, output ++ unpadded_groups (input.drop i)) := by
  intro fuel
  induction fuel with
  | zero =>
    intro i output hi hf
    have : i = input.length := by omega
    subst this
    simp [base64_encode_loop, unpadded_groups]
  | succ fuel ih =>
    intro i output hi hf
    unfold base64_encode_loop
    by_cases hlt : i < input.length
    · simp only [hlt, if_true, encode_group_eq input i hlt]
      rw [ih _ _ (by omega) (by omega)]
      have hne : input.drop i ≠ [] := by
        intro h
        have := congrArg List.length h
        simp at this
        omega
      have hd : input.drop (min (i + 3) input.length) = (input.drop i).drop 3 := by
        rw [List.drop_drop]
        by_cases h3 : i + 3 ≤ input.length
        · have : min (i + 3) input.length = i + 3 := by omega
          rw [this]
        · have : min (i + 3) input.length = input.length := by omega
          rw [this, List.drop_length, List.drop_eq_nil_of_le (by omega)]
      rw [unpadded_groups_step _ hne, hd, getD_drop_zero, getD_drop_zero, getD_drop_zero,
        List.append_assoc]
      simp
    · have : i = input.length := by omega
      subst this
      simp [unpadded_groups]

theorem base64_encode_eq_unpadded (input : List Byte) :
    base64_encode input = unpadded_groups input := by
  unfold base64_encode
  rw [base64_encode_loop_eq input input.length 0 [] (Nat.zero_le _) (by omega)]
  simp

theorem table_at_mem : ∀ n, n < 64 → table_at n ∈ base64_table := by decide

theorem sextet_value_table_at : ∀ n, n < 64 → sextet_value (table_at n) = n := by decide

theorem sextet_value_pad : sextet_value '=' = 0 := by decide

theorem group_chars_fields (a b c : Nat) (ha : a < 256) (hb : b < 256) (hc : c < 256) :
    group_chars a b c
      = [table_at (a / 4), table_at (a % 4 * 16 + b / 16), table_at (b % 16 * 4 + c / 64),
          table_at (c % 64)] := by
  obtain ⟨h1, h2, h3, h4⟩ := triple_fields a b c ha hb hc
  simp only [group_chars, h1, h2, h3, h4]

theorem group_chars_mem (a b c : Nat) : ∀ x ∈ group_chars a b c, x ∈ base64_table := by
  have h3 : ∀ x : Nat, x &&& 0x3F < 64 := fun x =>
    Nat.lt_of_le_of_lt Nat.and_le_right (by decide)
  intro x hx
  simp only [group_chars, List.mem_cons, List.mem_singleton, List.not_mem_nil, or_false] at hx
  rcases hx with h | h | h | h <;> rw [h] <;> exact table_at_mem _ (h3 _)

theorem unpadded_groups_mem (l : List Byte) : ∀ x ∈ unpadded_groups l, x ∈ base64_table := by
  induction l using unpadded_groups.induct with
  | case1 => intro x hx; simp [unpadded_groups] at hx
  | case2 a => intro x hx; exact group_chars_mem a 0 0 x (by simpa [unpadded_groups] using hx)
  | case3 a b => intro x hx; exact group_chars_mem a b 0 x (by simpa [unpadded_groups] using hx)
  | case4 a b c rest ih =>
    intro x hx
    rw [unpadded_groups, List.mem_append] at hx
    rcases hx with h | h
    · exact group_chars_mem a b c x h
    · exact ih x h

theorem decoded_groups_fields (a b c : Nat) (ha : a < 256) (hb : b < 256) (hc : c < 256)
    (rest : List Char) :
    decoded_groups (table_at (a / 4) :: table_at (a % 4 * 16 + b / 16)
      :: table_at (b % 16 * 4 + c / 64) :: table_at (c % 64) :: rest)
      = a :: b :: c :: decoded_groups rest := by
  rw [decoded_groups, sextet_value_table_at _ (by omega), sextet_value_table_at _ (by omega),
    sextet_value_table_at _ (by omega), sextet_value_table_at _ (by omega),
    group_bytes_fields a b c ha hb hc]
  rfl

theorem decoded_unpadded (l : List Byte) (hl : ∀ x ∈ l, x < 256) :
    decoded_groups (unpadded_groups l) = l ++ List.replicate ((3 - l.length % 3) % 3) 0 := by
  induction l using unpadded_groups.induct with
  | case1 => rfl
  | case2 a =>
    have ha : (a : Nat) < 256 := hl a (by simp)
    rw [unpadded_groups, group_chars_fields a 0 0 ha (by omega) (by omega),
      decoded_groups_fields a 0 0 ha (by omega) (by omega)]
    rfl
  | case3 a b =>
    have ha : (a : Nat) < 256 := hl a (by simp)
    have hb : (b : Nat) < 256 := hl b (by simp)
    rw [unpadded_groups, group_chars_fields a b 0 ha hb (by omega),
      decoded_groups_fields a b 0 ha hb (by omega)]
    rfl
  | case4 a b c rest ih =>
    have ha : (a : Nat) < 256 := hl a (by simp)
    have hb : (b : Nat) < 256 := hl b (by simp)
    have hc : (c : Nat) < 256 := hl c (by simp)
    rw [unpadded_groups, group_chars_fields a b c ha hb hc]
    simp only [List.cons_append, List.nil_append]
    rw [decoded_groups_fields a b c ha hb hc, ih (fun x hx => hl x (by simp [hx]))]
    have : (3 - (a :: b :: c :: rest).length % 3) % 3 = (3 - rest.length % 3) % 3 := by
      simp only [List.length_cons]
      omega
    rw [this]

theorem decoded_groups_one (a : Nat) (ha : a < 256) :
    decoded_groups [table_at (a / 4), table_at (a % 4 * 16), '=', '='] = [a, 0, 0] := by
  have h := group_bytes_fields a 0 0 ha (by omega) (by omega)
  simp only [Nat.zero_div, Nat.add_zero, Nat.zero_mod, Nat.zero_mul] at h
  rw [decoded_groups, sextet_value_table_at _ (by omega),
    sextet_value_table_at _ (by omega), sextet_value_pad, h]
  rfl

theorem decoded_groups_two (a b : Nat) (ha : a < 256) (hb : b < 256) :
    decoded_groups [table_at (a / 4), table_at (a % 4 * 16 + b / 16), table_at (b % 16 * 4), '=']
      = [a, b, 0] := by
  have h := group_bytes_fields a b 0 ha hb (by omega)
  simp only [Nat.zero_div, Nat.add_zero, Nat.zero_mod] at h
  rw [decoded_groups, sextet_value_table_at _ (by omega),
    sextet_value_table_at _ (by omega), sextet_value_table_at _ (by omega),
    sextet_value_pad, h]
  rfl

theorem decoded_reference (l : List Byte) (hl : ∀ x ∈ l, x < 256) :
    decoded_groups (reference_encode l) = l ++ List.replicate ((3 - l.length % 3) % 3) 0 := by
  induction l using reference_encode.induct with
  | case1 => rfl
  | case2 a =>
    rw [reference_encode, decoded_groups_one a (hl a (by simp))]
    rfl
  | case3 a b =>
    rw [reference_encode, decoded_groups_two a b (hl a (by simp)) (hl b (by simp))]
    rfl
  | case4 a b c rest ih =>
    have ha : (a : Nat) < 256 := hl a (by simp)
    have hb : (b : Nat) < 256 := hl b (by simp)
    have hc : (c : Nat) < 256 := hl c (by simp)
    rw [reference_encode]
    simp only [List.cons_append, List.nil_append]
    rw [decoded_groups_fields a b c ha hb hc, ih (fun x hx => hl x (by simp [hx]))]
    have : (3 - (a :: b :: c :: rest).length % 3) % 3 = (3 - rest.length % 3) % 3 := by
      simp only [List.length_cons]
      omega
    rw [this]

theorem group_chars_length (a b c : Nat) : (group_chars a b c).length = 4 := rfl

theorem unpadded_groups_at :
    ∀ (k : Nat) (l : List Byte), 3 * k < l.length →
      ((unpadded_groups l).drop (4 * k)).take 4
        = group_chars (l.getD (3 * k) 0) (l.getD (3 * k + 1) 0) (l.getD (3 * k + 2) 0) := by
  intro k
  induction k with
  | zero =>
    intro l hl
    have hne : l ≠ [] := by
      intro h
      rw [h] at hl
      simp at hl
    rw [unpadded_groups_step l hne]
    simp only [Nat.mul_zero, List.drop_zero, Nat.zero_add]
    exact List.take_left' (group_chars_length _ _ _)
  | succ k ih =>
    intro l hl
    match l, hl with
    | [], hl => simp at hl
    | [_], hl => exact absurd hl (by simp only [List.length_cons, List.length_nil]; omega)
    | [_, _], hl => exact absurd hl (by simp only [List.length_cons, List.length_nil]; omega)
    | a :: b :: c :: rest, hl =>
      have hr : 3 * k < rest.length := by
        simp only [List.length_cons] at hl
        omega
      have e0 : 4 * (k + 1) = (group_chars a b c).length + 4 * k := by
        rw [group_chars_length]; omega
      have i0 : 3 * (k + 1) = 3 * k + 1 + 1 + 1 := by omega
      have i1 : 3 * (k + 1) + 1 = 3 * k + 1 + 1 + 1 + 1 := by omega
      have i2 : 3 * (k + 1) + 2 = 3 * k + 2 + 1 + 1 + 1 := by omega
      have g0 : (a :: b :: c :: rest).getD (3 * (k + 1)) 0 = rest.getD (3 * k) 0 := by
        rw [i0]; simp only [List.getD_cons_succ]
      have g1 : (a :: b :: c :: rest).getD (3 * (k + 1) + 1) 0 = rest.getD (3 * k + 1) 0 := by
        rw [i1]; simp only [List.getD_cons_succ]
      have g2 : (a :: b :: c :: rest).getD (3 * (k + 1) + 2) 0 = rest.getD (3 * k + 2) 0 := by
        rw [i2]; simp only [List.getD_cons_succ]
      rw [unpadded_groups, e0, List.drop_append, ih rest hr, g0, g1, g2]

theorem decoded_length_cons4 (c0 c1 c2 c3 : Char) (rest : List Char) (h : 4 ≤ rest.length) :
    decoded_length (c0 :: c1 :: c2 :: c3 :: rest) = 3 + decoded_length rest := by
  have e1 : (c0 :: c1 :: c2 :: c3 :: rest).length - 1 = (rest.length - 1) + 1 + 1 + 1 + 1 := by
    simp only [List.length_cons]; omega
  have e2 : (c0 :: c1 :: c2 :: c3 :: rest).length - 2 = (rest.length - 2) + 1 + 1 + 1 + 1 := by
    simp only [List.length_cons]; omega
  have e3 : (c0 :: c1 :: c2 :: c3 :: rest).length / 4 = rest.length / 4 + 1 := by
    simp only [List.length_cons]; omega
  unfold decoded_length
  rw [e1, e2, e3]
  simp only [List.getD_cons_succ]
  split_ifs <;> omega

theorem reference_encode_length (l : List Byte) :
    (reference_encode l).length = 4 * ((l.length + 2) / 3) := by
  induction l using reference_encode.induct with
  | case1 => rfl
  | case2 a => simp [reference_encode]
  | case3 a b => simp [reference_encode]
  | case4 a b c rest ih =>
    rw [reference_encode, List.length_append, ih]
    simp only [List.length_cons, List.length_nil]
    omega

theorem valid_table_at (n : Nat) (h : n < 64) : valid_char (table_at n) :=
  Or.inl (table_at_mem n h)

theorem field_bounds (a b c : Nat) (ha : a < 256) (hb : b < 256) (hc : c < 256) :
    a / 4 < 64 ∧ a % 4 * 16 + b / 16 < 64 ∧ b % 16 * 4 + c / 64 < 64 ∧ c % 64 < 64 := by
  omega

theorem reference_encode_valid (l : List Byte) (hl : ∀ x ∈ l, x < 256) :
    ∀ x ∈ reference_encode l, valid_char x := by
  induction l using reference_encode.induct with
  | case1 => intro x hx; simp [reference_encode] at hx
  | case2 a =>
    obtain ⟨f1, f2, _, _⟩ := field_bounds a 0 0 (hl a (by simp)) (by omega) (by omega)
    simp only [Nat.zero_div, Nat.add_zero] at f2
    intro x hx
    simp only [reference_encode, List.mem_cons, List.mem_singleton, List.not_mem_nil,
      or_false] at hx
    rcases hx with h | h | h | h
    · rw [h]; exact valid_table_at _ f1
    · rw [h]; exact valid_table_at _ f2
    · exact Or.inr h
    · exact Or.inr h
  | case3 a b =>
    obtain ⟨f1, f2, f3, _⟩ := field_bounds a b 0 (hl a (by simp)) (hl b (by simp)) (by omega)
    simp only [Nat.zero_div, Nat.add_zero] at f3
    intro x hx
    simp only [reference_encode, List.mem_cons, List.mem_singleton, List.not_mem_nil,
      or_false] at hx
    rcases hx with h | h | h | h
    · rw [h]; exact valid_table_at _ f1
    · rw [h]; exact valid_table_at _ f2
    · rw [h]; exact valid_table_at _ f3
    · exact Or.inr h
  | case4 a b c rest ih =>
    obtain ⟨f1, f2, f3, f4⟩ := field_bounds a b c (hl a (by simp)) (hl b (by simp))
      (hl c (by simp))
    intro x hx
    rw [reference_encode, List.mem_append] at hx
    rcases hx with hx | hx
    · simp only [List.mem_cons, List.mem_singleton, List.not_mem_nil, or_false] at hx
      rcases hx with h | h | h | h
      · rw [h]; exact valid_table_at _ f1
      · rw [h]; exact valid_table_at _ f2
      · rw [h]; exact valid_table_at _ f3
      · rw [h]; exact valid_table_at _ f4
    · exact ih (fun y hy => hl y (by simp [hy])) x hx

theorem decoded_length_one (n m : Nat) :
    decoded_length [table_at n, table_at m, '=', '='] = 1 := by
  simp [decoded_length]

theorem decoded_length_two (n m k : Nat) (hk : k < 64) :
    decoded_length [table_at n, table_at m, table_at k, '='] = 2 := by
  have := table_at_ne_pad k hk
  simp [decoded_length, this]

theorem decoded_length_three (n m k j : Nat) (hk : k < 64) (hj : j < 64) :
    decoded_length [table_at n, table_at m, table_at k, table_at j] = 3 := by
  have h1 := table_at_ne_pad k hk
  have h2 := table_at_ne_pad j hj
  simp [decoded_length, h1, h2]

theorem reference_encode_decoded_length (l : List Byte) (hl : ∀ x ∈ l, x < 256) :
    decoded_length (reference_encode l) = l.length := by
  induction l using reference_encode.induct with
  | case1 => rfl
  | case2 a => rw [reference_encode, decoded_length_one]; rfl
  | case3 a b =>
    obtain ⟨_, _, f3, _⟩ := field_bounds a b 0 (hl a (by simp)) (hl b (by simp)) (by omega)
    simp only [Nat.zero_div, Nat.add_zero] at f3
    rw [reference_encode, decoded_length_two _ _ _ f3]
    rfl
  | case4 a b c rest ih =>
    obtain ⟨_, _, f3, f4⟩ := field_bounds a b c (hl a (by simp)) (hl b (by simp))
      (hl c (by simp))
    rw [reference_encode]
    by_cases hr : rest = []
    · subst hr
      simp only [reference_encode, List.append_nil]
      rw [decoded_length_three _ _ _ _ f3 f4]
      rfl
    · have hlen := reference_encode_length rest
      have hpos : 0 < rest.length := List.length_pos.mpr hr
      simp only [List.cons_append, List.nil_append]
      rw [decoded_length_cons4 _ _ _ _ _ (by rw [hlen]; omega),
        ih (fun y hy => hl y (by simp [hy]))]
      simp only [List.length_cons]
      omega

theorem getD_byte_lt (l : List Byte) (hl : ∀ x ∈ l, x < 256) (i : Nat) : l.getD i 0 < 256 := by
  by_cases h : i < l.length
  · rw [List.getD_eq_getElem _ _ h]
    exact hl _ (List.getElem_mem h)
  · rw [List.getD_eq_default _ _ (by omega)]
    decide

theorem unpadded_groups_length (l : List Byte) :
    (unpadded_groups l).length = 4 * ((l.length + 2) / 3) := by
  have h := (base64_encode_loop_spec l l.length l.length 0 [] (Nat.zero_le _) (by omega)).2
  rw [← base64_encode_eq_unpadded, base64_encode, h]
  simp

theorem unpadded_groups_decoded_length (l : List Byte) (hne : l ≠ []) :
    decoded_length (unpadded_groups l) = 3 * ((l.length + 2) / 3) := by
  have hlen := unpadded_groups_length l
  have hpos : 0 < l.length := List.length_pos.mpr hne
  have hnp : ∀ i, i < (unpadded_groups l).length → (unpadded_groups l).getD i NUL ≠ '=' := by
    intro i hi h
    have hm : (unpadded_groups l).getD i NUL ∈ base64_table := by
      rw [List.getD_eq_getElem _ _ hi]
      exact unpadded_groups_mem l _ (List.getElem_mem hi)
    rw [h] at hm
    revert hm
    decide
  unfold decoded_length
  rw [if_neg (hnp _ (by omega)), if_neg (hnp _ (by omega)), hlen]
  omega

/-! ## The claims -/

/-- C1 (round trip), evaluated on the code: `base64_encode` never writes `=`, so the
encoding of the single byte 72 is `SAAA` and decoding it gives the three bytes 72, 0, 0
with length 3, not the one byte that went in; the 14 bytes of `Hello, Base64!` come
back as 15 bytes. -/
theorem base64_round_trip_fails :
    base64_decode (base64_encode [72]) = .ok ([72, 0, 0], 3) ∧
    base64_decode (base64_encode (ascii "Hello, Base64!"))
      = .ok (ascii "Hello, Base64!" ++ [0], 15) := by
  decide

/-- C2 (known vector), evaluated on the code: `base64_encode` maps the 14 bytes of
`Hello, Base64!` to `SGVsbG8sIEJhc2U2NCEA`, whose last character is `A` where the
vector has `=`. -/
theorem base64_encode_hello :
    base64_encode (ascii "Hello, Base64!") = "SGVsbG8sIEJhc2U2NCEA".toList := by
  decide

/-- C3 (padding), evaluated on the code: inputs of length 1 and 2 are encoded to
`SAAA` and `SGkA`, and no output of `base64_encode` contains `=` at all. -/
theorem base64_encode_never_pads :
    base64_encode [72] = "SAAA".toList ∧
    base64_encode [72, 105] = "SGkA".toList ∧
    ∀ input : List Byte, '=' ∉ base64_encode input := by
  refine ⟨by decide, by decide, ?_⟩
  intro input
  exact base64_encode_loop_no_pad input input.length input.length 0 [] (List.not_mem_nil _)

/-- C4 (RC4 symmetry): for a non-empty key `rc4_initialize` delivers a state, and
transforming any data with that state and the result again with the same fresh state
gives the data back. -/
theorem rc4_symmetry (key data : List Byte) (hkey : key ≠ []) :
    ∃ S, rc4_initialize key = .ok S ∧
      (rc4_encrypt_decrypt (rc4_encrypt_decrypt data S).1 S).1 = data :=
  ⟨_, rc4_initialize_ok key hkey, rc4_twice data _⟩

/-- Witness of `rc4_symmetry` at the key `Key` and the data `Plaintext`. -/
theorem rc4_symmetry_witness :
    ascii "Key" ≠ [] ∧
    ∃ S, rc4_initialize (ascii "Key") = .ok S ∧
      (rc4_encrypt_decrypt (rc4_encrypt_decrypt (ascii "Plaintext") S).1 S).1
        = ascii "Plaintext" :=
  ⟨by decide, rc4_symmetry (ascii "Key") (ascii "Plaintext") (by decide)⟩

set_option maxRecDepth 1000000 in
/-- C5 (RC4 known vector): the state initialised from the key `Key` turns the nine
bytes of `Plaintext` into BB F3 16 E8 D9 40 AF 0A D3. -/
theorem rc4_known_vector :
    ∃ S, rc4_initialize (ascii "Key") = .ok S ∧
      (rc4_encrypt_decrypt (ascii "Plaintext") S).1
        = [0xBB, 0xF3, 0x16, 0xE8, 0xD9, 0x40, 0xAF, 0x0A, 0xD3] :=
  ⟨_, rfl, by decide⟩

/-- C6 (state is a permutation): for every non-empty key `rc4_initialize` delivers an
array of 256 entries holding each value 0..255 exactly once, and
`rc4_encrypt_decrypt` leaves every such array in that shape, whatever the data. -/
theorem rc4_state_permutation :
    (∀ key : List Byte, key ≠ [] →
      ∃ S, rc4_initialize key = .ok S ∧ is_permutation S) ∧
    (∀ S data : List Byte, is_permutation S →
      is_permutation (rc4_encrypt_decrypt data S).2) := by
  constructor
  · intro key hkey
    refine ⟨_, rc4_initialize_ok key hkey, ?_⟩
    exact ksa_fold_perm key (List.range 256) (fun i hi => List.mem_range.mp hi)
      0 identity_state is_permutation_identity
  · intro S data hS
    exact prga_fold_perm (List.range data.length) { i := 0, j := 0, S := S, data := data } hS

/-- Witness of `rc4_state_permutation` at the key `Key`, and at the identity array with
the data `Plaintext`. -/
theorem rc4_state_permutation_witness :
    ascii "Key" ≠ [] ∧
    (∃ S, rc4_initialize (ascii "Key") = .ok S ∧ is_permutation S) ∧
    is_permutation identity_state ∧
    is_permutation (rc4_encrypt_decrypt (ascii "Plaintext") identity_state).2 :=
  ⟨by decide, rc4_state_permutation.1 (ascii "Key") (by decide),
    is_permutation_identity,
    rc4_state_permutation.2 identity_state (ascii "Plaintext") is_permutation_identity⟩

/-- C7 (encode is total, length `4 * ceil(len / 3)`): the loop of `base64_encode` ends
because its condition fails (`i = len`), the text returned has `4 * ((len + 2) / 3)`
characters, a number `4 * n` with `n` the least integer such that `len ≤ 3 * n`, and
the empty input gives the empty text. -/
theorem base64_encode_total_length (input : List Byte) :
    (base64_encode_loop input input.length input.length 0 []).1 = input.length ∧
    (base64_encode input).length = 4 * ((input.length + 2) / 3) ∧
    (∃ n, (base64_encode input).length = 4 * n ∧
      input.length ≤ 3 * n ∧ 3 * n < input.length + 3) ∧
    base64_encode [] = [] := by
  obtain ⟨h1, h2⟩ := base64_encode_loop_spec input input.length input.length 0 []
    (Nat.zero_le _) (by omega)
  have h3 : (base64_encode input).length = 4 * ((input.length + 2) / 3) := by
    rw [base64_encode, h2]
    simp
  refine ⟨h1, h3, ⟨(input.length + 2) / 3, h3, by omega, by omega⟩, by decide⟩

/-- C8 (length not divisible by 4): `base64_decode` returns `NULL`, and with it no
output, for every text whose length is not a multiple of 4. -/
theorem base64_decode_rejects_length (input : List Char) (h : strlen input % 4 ≠ 0) :
    base64_decode input = .error .nullReturn := by
  simp only [base64_decode, h, ne_eq, not_false_eq_true, if_true]

/-- Witness of `base64_decode_rejects_length` at the three-character text `SGk`. -/
theorem base64_decode_rejects_length_witness :
    strlen "SGk".toList % 4 ≠ 0 ∧ base64_decode "SGk".toList = .error .nullReturn :=
  ⟨by decide, base64_decode_rejects_length "SGk".toList (by decide)⟩

/-- C9 (empty text), evaluated on the code: the length 0 passes the test
`len % 4 != 0`, and `base64_decode` goes on to read `input[len - 1]`, a position
outside the text, instead of returning `NULL`. -/
theorem base64_decode_empty :
    strlen [] % 4 = 0 ∧ base64_decode [] = .error .outOfBounds := by
  decide

/-- C10 (invalid characters), evaluated on the code: for `!` and for a space `strchr`
finds no table entry, and `base64_decode` subtracts from the `NULL` it got instead of
returning `NULL`. -/
theorem base64_decode_invalid_char :
    strchr base64_table '!' = none ∧ strchr base64_table ' ' = none ∧
    base64_decode "SG!A".toList = .error .nullArith ∧
    base64_decode "SGk ".toList = .error .nullArith := by
  decide

/-- C11 (empty key), evaluated on the code: with a key of length 0 `rc4_initialize`
has no check and no error result; line 16 computes `i % key_length`, a remainder by
zero, in its first round. -/
theorem rc4_initialize_empty_key :
    rc4_initialize [] = .error .divByZero := by
  decide

set_option maxRecDepth 1000000 in
/-- C16 (cursor reset): with the key `Key`, transforming one zero byte and then another
zero byte with the state as the first call left it gives EB 55, while one call on the
two zero bytes gives EB 9F: the second call does not continue the keystream. -/
theorem rc4_cursor_reset :
    ∃ k d1 d2 : List Byte, k ≠ [] ∧ d1 ≠ [] ∧ d2 ≠ [] ∧
      ∃ S, rc4_initialize k = .ok S ∧
        (rc4_encrypt_decrypt d1 S).1 ++ (rc4_encrypt_decrypt d2 (rc4_encrypt_decrypt d1 S).2).1
          ≠ (rc4_encrypt_decrypt (d1 ++ d2) S).1 :=
  ⟨ascii "Key", [0], [0], by decide, by decide, by decide, _, rfl, by decide⟩

/-- C19 (keystream independent of the data): for two buffers of one length
`rc4_encrypt_decrypt` leaves the same state, and at every position the value XORed into
the data is the same; so the output is the data XORed bytewise with the output for zero
bytes, and it has the length of the input. -/
theorem rc4_data_independent (S d1 d2 : List Byte) (hlen : d1.length = d2.length) :
    (rc4_encrypt_decrypt d1 S).2 = (rc4_encrypt_decrypt d2 S).2 ∧
    (∀ k, k < d1.length →
      (rc4_encrypt_decrypt d1 S).1.getD k 0 ^^^ d1.getD k 0
        = (rc4_encrypt_decrypt d2 S).1.getD k 0 ^^^ d2.getD k 0) ∧
    (rc4_encrypt_decrypt d1 S).1
      = List.zipWith (fun x y => x ^^^ y) d1
          (rc4_encrypt_decrypt (List.replicate d1.length 0) S).1 ∧
    (rc4_encrypt_decrypt d1 S).1.length = d1.length :=
  ⟨(rc4_keystream_indep S d1 d2 hlen).1, fun k _ => (rc4_keystream_indep S d1 d2 hlen).2 k,
    rc4_xor_keystream S d1, rc4_encrypt_decrypt_length d1 S⟩

/-- Witness of `rc4_data_independent` at the identity array and the buffers `Hi`, `Yo`. -/
theorem rc4_data_independent_witness :
    (ascii "Hi").length = (ascii "Yo").length ∧
    (rc4_encrypt_decrypt (ascii "Hi") identity_state).2
      = (rc4_encrypt_decrypt (ascii "Yo") identity_state).2 :=
  ⟨by decide, (rc4_data_independent identity_state (ascii "Hi") (ascii "Yo") (by decide)).1⟩

/-- C20 (a key and its repetition): for a non-empty key, `rc4_initialize` leaves the
same 256-entry state for `key ++ key` as for `key`, hence the same output of
`rc4_encrypt_decrypt` for every input. -/
theorem rc4_key_repetition (key : List Byte) (hkey : key ≠ []) :
    ∃ S, rc4_initialize key = .ok S ∧ rc4_initialize (key ++ key) = .ok S ∧
      S.length = 256 ∧
      ∀ data, ( rc4_initialize (key ++ key)).map (fun S2 => rc4_encrypt_decrypt data S2)
        = .ok (rc4_encrypt_decrypt data S) := by
  have h1 := rc4_initialize_ok key hkey
  have h2 := rc4_initialize_repeat key hkey
  refine ⟨_, h1, by rw [h2, h1], ?_, ?_⟩
  · exact (ksa_fold_perm key (List.range 256) (fun i hi => List.mem_range.mp hi)
      0 identity_state is_permutation_identity).1
  · intro data
    rw [h2, h1]
    rfl

/-- Witness of `rc4_key_repetition` at the key `Key`. -/
theorem rc4_key_repetition_witness :
    ascii "Key" ≠ [] ∧
    ∃ S, rc4_initialize (ascii "Key") = .ok S ∧
      rc4_initialize (ascii "Key" ++ ascii "Key") = .ok S ∧
      S.length = 256 ∧
      ∀ data, ( rc4_initialize (ascii "Key" ++ ascii "Key")).map
          (fun S2 => rc4_encrypt_decrypt data S2)
        = .ok (rc4_encrypt_decrypt data S) :=
  ⟨by decide, rc4_key_repetition (ascii "Key") (by decide)⟩

/-- C12 (decoded length): on a text of alphabet characters and `=` whose length is a
positive multiple of 4, `base64_decode` succeeds and reports `3 * (len / 4)`, minus 1 if
the last character is `=`, minus 1 more if the one before it is `=`; a text of the same
length with the same last two characters gets the same reported length. -/
theorem base64_decode_reported_length (input : List Char)
    (hv : ∀ c ∈ input, valid_char c) (hpos : 0 < input.length)
    (h4 : input.length % 4 = 0) :
    (∃ out, base64_decode input = .ok (out,
      3 * (input.length / 4)
        - (if input.getD (input.length - 1) NUL = '=' then 1 else 0)
        - (if input.getD (input.length - 2) NUL = '=' then 1 else 0))) ∧
    (∀ other : List Char, (∀ c ∈ other, valid_char c) → other.length = input.length →
      other.getD (other.length - 1) NUL = input.getD (input.length - 1) NUL →
      other.getD (other.length - 2) NUL = input.getD (input.length - 2) NUL →
      (base64_decode other).map Prod.snd = (base64_decode input).map Prod.snd) := by
  constructor
  · exact ⟨_, base64_decode_valid input hv hpos h4⟩
  · intro other hvo hlen h1 h2
    rw [base64_decode_valid input hv hpos h4,
      base64_decode_valid other hvo (by omega) (by omega)]
    rw [hlen] at h1 h2
    simp only [Except.map, decoded_length, hlen, h1, h2]

/-- Witness of `base64_decode_reported_length` at the text `QQ==` and, for the second
part, the text `QUI=`; one data character followed by `===` is reported as 1 byte. -/
theorem base64_decode_reported_length_witness :
    (∀ c ∈ "QQ==".toList, valid_char c) ∧ 0 < "QQ==".toList.length ∧
    "QQ==".toList.length % 4 = 0 ∧
    (∃ out, base64_decode "QQ==".toList = .ok (out, 1)) ∧
    (∃ out, base64_decode "Q===".toList = .ok (out, 1)) :=
  ⟨by decide, by decide, by decide,
    (base64_decode_reported_length "QQ==".toList (by decide) (by decide) (by decide)).1,
    (base64_decode_reported_length "Q===".toList (by decide) (by decide) (by decide)).1⟩

/-- C14 (sextet semantics): on a text of alphabet characters and `=` whose length is a
positive multiple of 4, `base64_decode` succeeds; the length it reports is
`3 * (len / 4)` less one for each of the last two characters that is `=`, which is at
least 1; and its output is the first that many bytes of the concatenation over the
4-character groups of the three bytes of `s0<<18 | s1<<12 | s2<<6 | s3`, a sextet being
the alphabet index of the character and 0 for `=`; exactly that many bytes are
written. -/
theorem base64_decode_sextets (input : List Char)
    (hv : ∀ c ∈ input, valid_char c) (hpos : 0 < input.length)
    (h4 : input.length % 4 = 0) :
    base64_decode input
      = .ok ((decoded_groups input).take (decoded_length input), decoded_length input) ∧
    decoded_length input
      = 3 * (input.length / 4)
        - (if input.getD (input.length - 1) NUL = '=' then 1 else 0)
        - (if input.getD (input.length - 2) NUL = '=' then 1 else 0) ∧
    1 ≤ decoded_length input ∧
    ((decoded_groups input).take (decoded_length input)).length = decoded_length input := by
  have hl := decoded_groups_length input (input.length / 4) (by omega)
  have hle := decoded_length_le input
  have hge : 1 ≤ decoded_length input := by
    unfold decoded_length
    split_ifs <;> omega
  refine ⟨base64_decode_valid input hv hpos h4, rfl, hge, ?_⟩
  rw [List.length_take, hl]
  omega

/-- Witness of `base64_decode_sextets` at the text `SGk=`, which decodes to the two
bytes 72, 105 of `Hi`. -/
theorem base64_decode_sextets_witness :
    (∀ c ∈ "SGk=".toList, valid_char c) ∧ 0 < "SGk=".toList.length ∧
    "SGk=".toList.length % 4 = 0 ∧
    base64_decode "SGk=".toList
      = .ok ((decoded_groups "SGk=".toList).take (decoded_length "SGk=".toList),
          decoded_length "SGk=".toList) ∧
    decoded_length "SGk=".toList = 2 ∧
    (decoded_groups "SGk=".toList).take (decoded_length "SGk=".toList) = [72, 105] :=
  ⟨by decide, by decide, by decide,
    (base64_decode_sextets "SGk=".toList (by decide) (by decide) (by decide)).1,
    by decide, by decide⟩

/-- C15 (alphabet invariant): the table has 64 characters, pairwise distinct, none of
them `=`; the lookup `strchr(base64_table, c) - base64_table` gives `n` for the
character at index `n`, and finds nothing for a character outside the table, which is
what every character of a text in front of its terminator is looked up as. -/
theorem base64_table_invariant :
    base64_table.length = 64 ∧ base64_table.Nodup ∧ '=' ∉ base64_table ∧
    (∀ n, n < 64 → strchr base64_table (table_at n) = some n) ∧
    (∀ c, c ∉ base64_table → c ≠ NUL → strchr base64_table c = none) ∧
    (∀ (input : List Char) (i : Nat), i < strlen input →
      input.getD i NUL ∉ base64_table → strchr base64_table (input.getD i NUL) = none) := by
  refine ⟨by decide, by decide, by decide, by decide, ?_, ?_⟩
  · intro c hc hn
    exact strchr_from_none c hn base64_table hc 0
  · intro input i hi hc
    exact strchr_from_none _ (getD_ne_nul_of_lt_strlen input i hi) base64_table hc 0

/-- Witness of `base64_table_invariant` at index 26 (the character `a`) and at the
character `!` of the text `SG!A`. -/
theorem base64_table_invariant_witness :
    strchr base64_table (table_at 26) = some 26 ∧ table_at 26 = 'a' ∧
    strchr base64_table '!' = none ∧
    strchr base64_table ("SG!A".toList.getD 2 NUL) = none :=
  ⟨base64_table_invariant.2.2.2.1 26 (by decide), by decide,
    base64_table_invariant.2.2.2.2.1 '!' (by decide) (by decide),
    base64_table_invariant.2.2.2.2.2 "SG!A".toList 2 (by decide) (by decide)⟩

/-- C13 (group packing): for bytes `b0`, `b1`, `b2` at offsets `3k`, `3k+1`, `3k+2` of
the input, a byte missing from a final partial group counting as 0, the characters of
`base64_encode` at positions `4k .. 4k+3` are the table characters at `b0 >> 2`,
`((b0 & 3) << 4) | (b1 >> 4)`, `((b1 & 15) << 2) | (b2 >> 6)` and `b2 & 63`, and these
indices are the four 6-bit fields of `b0*65536 + b1*256 + b2`, most significant first. -/
theorem base64_encode_group_packing (input : List Byte) (hbytes : ∀ x ∈ input, x < 256)
    (k b0 b1 b2 : Nat) (hk : 3 * k < input.length)
    (h0 : b0 = input.getD (3 * k) 0) (h1 : b1 = input.getD (3 * k + 1) 0)
    (h2 : b2 = input.getD (3 * k + 2) 0) :
    ((base64_encode input).drop (4 * k)).take 4
      = [table_at (b0 >>> 2), table_at (((b0 &&& 3) <<< 4) ||| (b1 >>> 4)),
          table_at (((b1 &&& 15) <<< 2) ||| (b2 >>> 6)), table_at (b2 &&& 63)] ∧
    b0 >>> 2 = (b0 * 65536 + b1 * 256 + b2) / 262144 % 64 ∧
    ((b0 &&& 3) <<< 4) ||| (b1 >>> 4) = (b0 * 65536 + b1 * 256 + b2) / 4096 % 64 ∧
    ((b1 &&& 15) <<< 2) ||| (b2 >>> 6) = (b0 * 65536 + b1 * 256 + b2) / 64 % 64 ∧
    b2 &&& 63 = (b0 * 65536 + b1 * 256 + b2) % 64 := by
  have l0 : b0 < 256 := h0 ▸ getD_byte_lt input hbytes _
  have l1 : b1 < 256 := h1 ▸ getD_byte_lt input hbytes _
  have l2 : b2 < 256 := h2 ▸ getD_byte_lt input hbytes _
  obtain ⟨f0, f1, f2, f3⟩ := byte_fields b0 b1 b2 l1 l2
  rw [base64_encode_eq_unpadded, unpadded_groups_at k input hk, ← h0, ← h1, ← h2,
    group_chars_fields b0 b1 b2 l0 l1 l2, f0, f1, f2, f3]
  refine ⟨rfl, ?_, ?_, ?_, ?_⟩ <;> omega

/-- Witness of `base64_encode_group_packing` at the input `Hello, Base64!`: the complete
group `Hel` at `k = 0` gives `SGVs`. -/
theorem base64_encode_group_packing_witness :
    (∀ x ∈ ascii "Hello, Base64!", x < 256) ∧ 3 * 0 < (ascii "Hello, Base64!").length ∧
    ((base64_encode (ascii "Hello, Base64!")).drop (4 * 0)).take 4
      = [table_at (72 >>> 2), table_at (((72 &&& 3) <<< 4) ||| (101 >>> 4)),
          table_at (((101 &&& 15) <<< 2) ||| (108 >>> 6)), table_at (108 &&& 63)] ∧
    [table_at (72 >>> 2), table_at (((72 &&& 3) <<< 4) ||| (101 >>> 4)),
      table_at (((101 &&& 15) <<< 2) ||| (108 >>> 6)), table_at (108 &&& 63)]
      = "SGVs".toList :=
  ⟨by decide, by decide,
    (base64_encode_group_packing (ascii "Hello, Base64!") (by decide) 0 72 101 108
      (by decide) (by decide) (by decide) (by decide)).1,
    by decide⟩

/-- C17 (decode inverts the standard encoding): for a non-empty sequence of bytes,
`base64_decode` applied to its standard padded encoding returns the bytes and their
number. -/
theorem base64_decode_reference (b : List Byte) (hbytes : ∀ x ∈ b, x < 256)
    (hne : b ≠ []) :
    base64_decode (reference_encode b) = .ok (b, b.length) := by
  have hlen := reference_encode_length b
  have hpos : 0 < b.length := List.length_pos.mpr hne
  rw [base64_decode_valid (reference_encode b) (reference_encode_valid b hbytes)
      (by rw [hlen]; omega) (by rw [hlen]; omega),
    reference_encode_decoded_length b hbytes, decoded_reference b hbytes, List.take_left]

/-- Witness of `base64_decode_reference` at the 14 bytes of `Hello, Base64!`, whose
standard encoding is `SGVsbG8sIEJhc2U2NCE=`. -/
theorem base64_decode_reference_witness :
    (∀ x ∈ ascii "Hello, Base64!", x < 256) ∧ ascii "Hello, Base64!" ≠ [] ∧
    reference_encode (ascii "Hello, Base64!") = "SGVsbG8sIEJhc2U2NCE=".toList ∧
    (ascii "Hello, Base64!").length = 14 ∧
    base64_decode (reference_encode (ascii "Hello, Base64!"))
      = .ok (ascii "Hello, Base64!", (ascii "Hello, Base64!").length) :=
  ⟨by decide, by decide, by decide, by decide,
    base64_decode_reference (ascii "Hello, Base64!") (by decide) (by decide)⟩

/-- C18 (the two functions composed): for a non-empty sequence of bytes,
`base64_decode (base64_encode b)` succeeds and returns `b` followed by
`(3 - len mod 3) mod 3` zero bytes, with reported length `3 * ceil(len / 3)`; when the
length is a multiple of 3 it returns exactly `b`. -/
theorem base64_round_trip_zero_extends (b : List Byte) (hbytes : ∀ x ∈ b, x < 256)
    (hne : b ≠ []) :
    base64_decode (base64_encode b)
      = .ok (b ++ List.replicate ((3 - b.length % 3) % 3) 0, 3 * ((b.length + 2) / 3)) ∧
    (b.length % 3 = 0 → base64_decode (base64_encode b) = .ok (b, b.length)) := by
  have hlen := unpadded_groups_length b
  have hpos : 0 < b.length := List.length_pos.mpr hne
  have hmain : base64_decode (base64_encode b)
      = .ok (b ++ List.replicate ((3 - b.length % 3) % 3) 0, 3 * ((b.length + 2) / 3)) := by
    rw [base64_encode_eq_unpadded,
      base64_decode_valid (unpadded_groups b)
        (fun c hc => Or.inl (unpadded_groups_mem b c hc))
        (by rw [hlen]; omega) (by rw [hlen]; omega),
      unpadded_groups_decoded_length b hne, decoded_unpadded b hbytes,
      List.take_of_length_le (by
        rw [List.length_append, List.length_replicate]
        omega)]
  refine ⟨hmain, ?_⟩
  intro h3
  rw [hmain]
  have e1 : (3 - b.length % 3) % 3 = 0 := by omega
  have e2 : 3 * ((b.length + 2) / 3) = b.length := by omega
  rw [e1, e2]
  simp

/-- Witness of `base64_round_trip_zero_extends` at the single byte 72 and, for the
second part, at the three bytes of `Hel`. -/
theorem base64_round_trip_zero_extends_witness :
    (∀ x ∈ [72], x < 256) ∧ ([72] : List Byte) ≠ [] ∧
    base64_decode (base64_encode [72]) = .ok ([72] ++ List.replicate ((3 - 1 % 3) % 3) 0, 3) ∧
    (ascii "Hel").length % 3 = 0 ∧
    base64_decode (base64_encode (ascii "Hel")) = .ok (ascii "Hel", (ascii "Hel").length) :=
  ⟨by decide, by decide,
    (base64_round_trip_zero_extends [72] (by decide) (by decide)).1,
    by decide,
    (base64_round_trip_zero_extends (ascii "Hel") (by decide) (by decide)).2 (by decide)⟩

end CEncryption
